import Mathlib

/-!
Verification of `src/scripts/String.prototype.currencyFormat.js`.

Strings are modelled as `List Char`.  The two prototype functions
`String.prototype.currencyFormat` and `String.prototype.currencyUnformat`
are embedded as `currencyFormat` and `currencyUnformat` below.

Two JavaScript subtleties are modelled faithfully:

* The grouping loop is `for (var i in digits)`, so `i` is the *string* form
  of the index; `(i + 1)` is string concatenation, producing the decimal
  string of the index with the digit `1` appended, whose numeric value is
  `10*i + 1`.  The guard `(i + 1) % 3 === 0` therefore tests
  `(10*i + 1) % 3 = 0` (which happens to agree with `(i+1) % 3 = 0` since
  `10 ≡ 1 [MOD 3]`).  The other guard `i < digitsLength - 1` compares
  numerically.

* The default unformat pattern is the regex `/[^\d|^\.]+/g`: a negated
  character class containing `\d`, the literal `|`, the literal `^` (not in
  first position, hence literal) and `\.`.  A global replacement of maximal
  runs of this class by the empty string removes exactly the characters
  matched by the class, i.e. keeps the characters `0`-`9`, `|`, `^`, `.`.
-/

/-- `occursAt sep s i` holds when the string `sep` occurs in `s` starting at
position `i` (the JS substring-match test used by `lastIndexOf`). -/
def occursAt (sep s : List Char) (i : Nat) : Bool :=
  (s.drop i).take sep.length == sep

/-- JS `s.lastIndexOf(sep)`: the largest position `i` (with `0 ≤ i ≤ s.length`)
at which `sep` occurs in `s`, or `-1` when there is none.  In particular
`lastIndexOf s [] = s.length`. -/
def lastIndexOf (s sep : List Char) : Int :=
  match (List.range (s.length + 1)).reverse.find? (fun i => occursAt sep s i) with
  | some i => (i : Int)
  | none => -1

/-- The `for (var i in digits)` loop of `currencyFormat`.  `digits` is the
reversed integer part, `dlen` its length (`digitsLength` in the source).  At
index `i` the character is prepended to the accumulator `units`, and the
group separator is also prepended when `(i + 1) % 3 === 0` — with the JS
string coercion, `(10*i + 1) % 3 = 0` — and `i < digitsLength - 1`. -/
def unitsLoop (sep : List Char) (dlen : Nat) : List Char → Nat → List Char → List Char
  | [], _, units => units
  | d :: ds, i, units =>
      unitsLoop sep dlen ds (i + 1)
        (if (10 * i + 1) % 3 = 0 ∧ i < dlen - 1 then sep ++ (d :: units) else d :: units)

/-- `String.prototype.currencyFormat(symbol, groupSeparator, decimalSeparator)`
applied to `input` (the `this` string). -/
def currencyFormat (input symbol groupSeparator decimalSeparator : List Char) :
    List Char :=
  if groupSeparator ≠ [] then
    let decimalPosition : Int := lastIndexOf input decimalSeparator
    let decimals : List Char :=
      if decimalPosition > -1 then input.drop decimalPosition.toNat else []
    let digits : List Char :=
      if decimalPosition > -1 then (input.take decimalPosition.toNat).reverse
      else input.reverse
    symbol ++ unitsLoop groupSeparator digits.length digits 0 [] ++ decimals
  else
    symbol ++ input

/-- The character class `[^\d|^\.]` of the default unformat pattern
`/[^\d|^\.]+/g`: matches any character that is not an ASCII digit, not `|`,
not `^` and not `.` (inside a character class `|` is a literal, and `^` not in
first position is a literal). -/
def matchesDefaultClass (c : Char) : Bool :=
  !(c.isDigit || c == '|' || c == '^' || c == '.')

/-- `String.prototype.currencyUnformat()` with the default pattern:
`this.replace(/[^\d|^\.]+/g, '')`.  Globally replacing every maximal run of
characters of the class by the empty string removes exactly the characters
the class matches. -/
def currencyUnformat (input : List Char) : List Char :=
  input.filter (fun c => !matchesDefaultClass c)

/-! ### Analysis definitions (used to state the properties) -/

/-- The integer part `currencyFormat` splits off: the part of the input before
the last occurrence of `decimalSeparator`, or the whole input when it does not
occur. -/
def intPartOf (input dsep : List Char) : List Char :=
  let p := lastIndexOf input dsep
  if p > -1 then input.take p.toNat else input

/-- The fractional part `currencyFormat` splits off: the part of the input from
the last occurrence of `decimalSeparator` (inclusive) to the end, or empty when
it does not occur. -/
def fracPartOf (input dsep : List Char) : List Char :=
  let p := lastIndexOf input dsep
  if p > -1 then input.drop p.toNat else []

/-- Chunk a list into groups of three from the left; the final group holds the
one or two leftover elements. -/
def chunk3 : List Char → List (List Char)
  | [] => []
  | [a] => [[a]]
  | [a, b] => [[a, b]]
  | a :: b :: c :: rest => [a, b, c] :: chunk3 rest

/-- The digit groups of `l` counted from the right: every group has exactly
three characters except possibly the first (leftmost), which has one to three.
Computed by chunking the reversed list from the left. -/
def groupsFromRight (l : List Char) : List (List Char) :=
  ((chunk3 l.reverse).map List.reverse).reverse

/-- Join a list of groups, inserting `sep` between consecutive groups (and
never at either end). -/
def joinSep (sep : List Char) : List (List Char) → List Char
  | [] => []
  | [g] => g
  | g :: gs => g ++ sep ++ joinSep sep gs

/-- Reference recursion for the grouping loop, consuming the reversed integer
part three characters at a time. -/
def unitsSpecR (sep : List Char) : List Char → List Char
  | [] => []
  | [a] => [a]
  | [a, b] => [b, a]
  | a :: b :: c :: rest =>
      if rest.isEmpty then [c, b, a]
      else unitsSpecR sep rest ++ (sep ++ [c, b, a])

/-- The group sizes produced by `chunk3` on a list of the given length. -/
def lenChunks : Nat → List Nat
  | 0 => []
  | 1 => [1]
  | 2 => [2]
  | n + 3 => 3 :: lenChunks n

/-! ### Helper lemmas about the chunking -/

theorem chunk3_flatten (r : List Char) : (chunk3 r).flatten = r := by
  induction r using chunk3.induct with
  | case1 => simp [chunk3]
  | case2 a => simp [chunk3]
  | case3 a b => simp [chunk3]
  | case4 a b c rest ih => simp [chunk3, ih]

theorem chunk3_length (r : List Char) : (chunk3 r).length = (r.length + 2) / 3 := by
  induction r using chunk3.induct with
  | case1 => simp [chunk3]
  | case2 a => simp [chunk3]
  | case3 a b => simp [chunk3]
  | case4 a b c rest ih =>
    simp only [chunk3, List.length_cons, ih]
    omega

theorem chunk3_eq_nil_iff (r : List Char) : chunk3 r = [] ↔ r = [] := by
  induction r using chunk3.induct with
  | case1 => simp [chunk3]
  | case2 a => simp [chunk3]
  | case3 a b => simp [chunk3]
  | case4 a b c rest ih => simp [chunk3]

theorem chunk3_mem_length (r : List Char) :
    ∀ g ∈ chunk3 r, 1 ≤ g.length ∧ g.length ≤ 3 := by
  induction r using chunk3.induct with
  | case1 => simp [chunk3]
  | case2 a => simp [chunk3]
  | case3 a b => simp [chunk3]
  | case4 a b c rest ih =>
    intro g hg
    simp only [chunk3, List.mem_cons] at hg
    rcases hg with rfl | hg
    · simp
    · exact ih g hg

theorem chunk3_dropLast_length (r : List Char) :
    ∀ g ∈ (chunk3 r).dropLast, g.length = 3 := by
  induction r using chunk3.induct with
  | case1 => simp [chunk3]
  | case2 a => simp [chunk3]
  | case3 a b => simp [chunk3]
  | case4 a b c rest ih =>
    intro g hg
    cases hrest : chunk3 rest with
    | nil => simp [chunk3, hrest] at hg
    | cons x xs =>
      rw [show chunk3 (a :: b :: c :: rest) = [a, b, c] :: chunk3 rest from rfl,
        hrest, List.dropLast_cons₂, List.mem_cons] at hg
      rcases hg with rfl | hg
      · simp
      · exact ih g (by rw [hrest]; exact hg)

theorem chunk3_map_length (r : List Char) :
    (chunk3 r).map List.length = lenChunks r.length := by
  induction r using chunk3.induct with
  | case1 => simp [chunk3, lenChunks]
  | case2 a => simp [chunk3, lenChunks]
  | case3 a b => simp [chunk3, lenChunks]
  | case4 a b c rest ih =>
    show 3 :: (chunk3 rest).map List.length = lenChunks (rest.length + 3)
    rw [ih, lenChunks]

theorem groupsFromRight_flatten (l : List Char) : (groupsFromRight l).flatten = l := by
  unfold groupsFromRight
  rw [List.flatten_reverse, List.map_map]
  simp [chunk3_flatten]

theorem groupsFromRight_length (l : List Char) :
    (groupsFromRight l).length = (l.length + 2) / 3 := by
  simp [groupsFromRight, chunk3_length]

theorem groupsFromRight_map_length (l : List Char) :
    (groupsFromRight l).map List.length = (lenChunks l.length).reverse := by
  unfold groupsFromRight
  rw [List.map_reverse, List.map_map]
  have : (List.length ∘ List.reverse : List Char → Nat) = List.length := by
    funext g; simp
  rw [this, chunk3_map_length, List.length_reverse]

theorem groupsFromRight_mem_length (l : List Char) :
    ∀ g ∈ groupsFromRight l, 1 ≤ g.length ∧ g.length ≤ 3 := by
  intro g hg
  simp only [groupsFromRight, List.mem_reverse, List.mem_map] at hg
  obtain ⟨h, hh, rfl⟩ := hg
  simpa using chunk3_mem_length _ h hh

theorem groupsFromRight_tail_length (l : List Char) :
    ∀ g ∈ (groupsFromRight l).tail, g.length = 3 := by
  intro g hg
  rw [groupsFromRight, List.tail_reverse_eq_reverse_dropLast, List.mem_reverse,
    ← List.map_dropLast, List.mem_map] at hg
  obtain ⟨h, hh, rfl⟩ := hg
  simpa using chunk3_dropLast_length _ h hh

/-! ### Helper lemmas about the grouping loop -/

theorem joinSep_append_last (sep : List Char) (gs : List (List Char)) (g : List Char)
    (hgs : gs ≠ []) : joinSep sep (gs ++ [g]) = joinSep sep gs ++ (sep ++ g) := by
  induction gs with
  | nil => cases hgs rfl
  | cons a as ih =>
    cases as with
    | nil => simp [joinSep]
    | cons b bs =>
      have ih' := ih (by simp)
      rw [List.cons_append] at ih'
      rw [List.cons_append, joinSep, joinSep, List.cons_append, ih']
      · simp [List.append_assoc]
      · simp
      · simp

theorem unitsSpecR_eq_joinSep (sep r : List Char) :
    unitsSpecR sep r = joinSep sep (((chunk3 r).map List.reverse).reverse) := by
  induction r using unitsSpecR.induct sep with
  | case1 => simp [unitsSpecR, chunk3, joinSep]
  | case2 a => simp [unitsSpecR, chunk3, joinSep]
  | case3 a b => simp [unitsSpecR, chunk3, joinSep]
  | case4 a b c rest hrest =>
    rw [List.isEmpty_iff] at hrest
    subst hrest
    simp [unitsSpecR, chunk3, joinSep]
  | case5 a b c rest hrest ih =>
    rw [List.isEmpty_iff] at hrest
    have hch : chunk3 rest ≠ [] := fun h => hrest ((chunk3_eq_nil_iff rest).mp h)
    rw [unitsSpecR, if_neg (by simpa [List.isEmpty_iff] using hrest)]
    rw [show chunk3 (a :: b :: c :: rest) = [a, b, c] :: chunk3 rest from rfl]
    rw [List.map_cons, List.reverse_cons,
      joinSep_append_last _ _ _ (by simpa using hch), ih]
    simp

theorem unitsLoop_spec (sep : List Char) :
    ∀ (n : Nat) (r : List Char), r.length ≤ n → ∀ (i : Nat) (acc : List Char),
      i % 3 = 0 →
      unitsLoop sep (i + r.length) r i acc = unitsSpecR sep r ++ acc := by
  intro n
  induction n with
  | zero =>
    intro r hr i acc _
    have hnil : r = [] := List.length_eq_zero.mp (Nat.le_zero.mp hr)
    subst hnil
    simp [unitsLoop, unitsSpecR]
  | succ n ih =>
    intro r hr i acc hi
    match r with
    | [] => simp [unitsLoop, unitsSpecR]
    | [a] =>
      have hc1 : ¬ ((10 * i + 1) % 3 = 0 ∧ i < i + [a].length - 1) := by
        simp only [List.length_singleton]; omega
      simp only [unitsLoop, if_neg hc1, unitsSpecR]
      rfl
    | [a, b] =>
      have hc1 : ¬ ((10 * i + 1) % 3 = 0 ∧ i < i + [a, b].length - 1) := by
        simp only [List.length_cons, List.length_nil]; omega
      have hc2 : ¬ ((10 * (i + 1) + 1) % 3 = 0 ∧ i + 1 < i + [a, b].length - 1) := by
        simp only [List.length_cons, List.length_nil]; omega
      simp only [unitsLoop, if_neg hc1, if_neg hc2, unitsSpecR]
      rfl
    | a :: b :: c :: rest =>
      by_cases hrest : rest = []
      · subst hrest
        have hc1 : ¬ ((10 * i + 1) % 3 = 0 ∧ i < i + [a, b, c].length - 1) := by
          simp only [List.length_cons, List.length_nil]; omega
        have hc2 : ¬ ((10 * (i + 1) + 1) % 3 = 0 ∧
            i + 1 < i + [a, b, c].length - 1) := by
          simp only [List.length_cons, List.length_nil]; omega
        have hc3 : ¬ ((10 * (i + 1 + 1) + 1) % 3 = 0 ∧
            i + 1 + 1 < i + [a, b, c].length - 1) := by
          simp only [List.length_cons, List.length_nil]; omega
        simp only [unitsLoop, if_neg hc1, if_neg hc2, if_neg hc3, unitsSpecR,
          List.isEmpty_nil, if_pos]
        rfl
      · have hrl : 0 < rest.length := List.length_pos.mpr hrest
        have hd : i + (a :: b :: c :: rest).length = i + 1 + 1 + 1 + rest.length := by
          simp only [List.length_cons]; omega
        have hc1 : ¬ ((10 * i + 1) % 3 = 0 ∧
            i < i + 1 + 1 + 1 + rest.length - 1) := by omega
        have hc2 : ¬ ((10 * (i + 1) + 1) % 3 = 0 ∧
            i + 1 < i + 1 + 1 + 1 + rest.length - 1) := by omega
        have hc3 : ((10 * (i + 1 + 1) + 1) % 3 = 0 ∧
            i + 1 + 1 < i + 1 + 1 + 1 + rest.length - 1) := by omega
        have ihr := ih rest (by simp only [List.length_cons] at hr; omega)
          (i + 1 + 1 + 1) (sep ++ (c :: b :: a :: acc)) (by omega)
        rw [hd]
        simp only [unitsLoop]
        rw [if_pos hc3, if_neg hc2, if_neg hc1, ihr]
        rw [unitsSpecR, if_neg (by simpa [List.isEmpty_iff] using hrest)]
        simp [List.append_assoc]

theorem unitsLoop_closed (sep r : List Char) :
    unitsLoop sep r.length r 0 [] = unitsSpecR sep r := by
  have h := unitsLoop_spec sep r.length r (Nat.le_refl _) 0 [] rfl
  simpa using h

/-- Structural form of the grouping path of `currencyFormat`: for a non-empty
group separator, the output is the symbol, the integer part regrouped from the
right with the separator between groups, and the untouched fractional part. -/
theorem currencyFormat_eq (input sym sep dsep : List Char) (hsep : sep ≠ []) :
    currencyFormat input sym sep dsep =
      sym ++ joinSep sep (groupsFromRight (intPartOf input dsep))
        ++ fracPartOf input dsep := by
  unfold currencyFormat intPartOf fracPartOf
  rw [if_pos hsep]
  by_cases hp : lastIndexOf input dsep > -1
  · simp only [if_pos hp]
    rw [unitsLoop_closed, unitsSpecR_eq_joinSep]
    simp [groupsFromRight]
  · simp only [if_neg hp]
    rw [unitsLoop_closed, unitsSpecR_eq_joinSep]
    simp [groupsFromRight]

/-! ### Helper lemmas about `lastIndexOf` -/

theorem occursAt_false_of_gt {sep s : List Char} {i : Nat} (hd : sep ≠ [])
    (hi : s.length < i) : occursAt sep s i = false := by
  unfold occursAt
  rw [List.drop_eq_nil_of_le (Nat.le_of_lt hi)]
  cases sep with
  | nil => cases hd rfl
  | cons x xs => simp

theorem lastIndexOf_nonneg {s sep : List Char} (hd : sep ≠ [])
    (hocc : ∃ i, occursAt sep s i = true) : lastIndexOf s sep > -1 := by
  obtain ⟨i, hi⟩ := hocc
  have hile : i ≤ s.length := by
    by_contra hgt
    rw [occursAt_false_of_gt hd (Nat.lt_of_not_le hgt)] at hi
    cases hi
  unfold lastIndexOf
  cases hfind : (List.range (s.length + 1)).reverse.find? (fun j => occursAt sep s j) with
  | some j => simp only; omega
  | none =>
    exfalso
    have hall := List.find?_eq_none.mp hfind
    exact absurd hi (by simpa using hall i (by simp [List.mem_reverse, List.mem_range, Nat.lt_succ_of_le hile]))

theorem lastIndexOf_eq_neg_one {s sep : List Char}
    (hnot : ∀ i, i < s.length + 1 → occursAt sep s i = false) :
    lastIndexOf s sep = -1 := by
  unfold lastIndexOf
  have hfind : (List.range (s.length + 1)).reverse.find? (fun j => occursAt sep s j)
      = none := by
    rw [List.find?_eq_none]
    intro j hj
    rw [List.mem_reverse, List.mem_range] at hj
    simp [hnot j hj]
  rw [hfind]

theorem lastIndexOf_nil_sep (s : List Char) : lastIndexOf s [] = (s.length : Int) := by
  unfold lastIndexOf
  rw [List.range_succ, List.reverse_append]
  simp [occursAt]

/-! ### Helper lemmas about splitting and filtering -/

theorem intPart_append_fracPart (input dsep : List Char) :
    intPartOf input dsep ++ fracPartOf input dsep = input := by
  unfold intPartOf fracPartOf
  by_cases hp : lastIndexOf input dsep > -1
  · simp only [if_pos hp, List.take_append_drop]
  · simp only [if_neg hp, List.append_nil]

theorem intPartOf_subset (input dsep : List Char) : intPartOf input dsep ⊆ input := by
  unfold intPartOf
  by_cases hp : lastIndexOf input dsep > -1
  · simp only [if_pos hp]
    exact List.take_subset _ _
  · simp only [if_neg hp]
    exact fun _ h => h

theorem fracPartOf_subset (input dsep : List Char) : fracPartOf input dsep ⊆ input := by
  unfold fracPartOf
  by_cases hp : lastIndexOf input dsep > -1
  · simp only [if_pos hp]
    exact List.drop_subset _ _
  · simp only [if_neg hp]
    exact fun _ h => by cases h

theorem filter_joinSep (p : Char → Bool) (sep : List Char) (hsep : sep.filter p = [])
    (gs : List (List Char)) :
    (joinSep sep gs).filter p = gs.flatten.filter p := by
  induction gs with
  | nil => simp [joinSep]
  | cons a as ih =>
    cases as with
    | nil => simp [joinSep]
    | cons b bs =>
      rw [joinSep]
      · simp [List.filter_append, hsep, ih]
      · simp

/-! ### Claim theorems -/

/-- C1: for every input string and non-empty `groupSeparator`, `currencyFormat`
rebuilds the integer part as its groups-from-the-right joined by exactly one
separator between consecutive groups.  The groups concatenate back to the
integer part; for a non-empty integer part of length `len` there are
`(len-1)/3 + 1` groups, hence exactly `⌊(len-1)/3⌋` separators are inserted;
every group after the leftmost has exactly three characters, so separators sit
exactly three characters apart counted from the right; the leftmost group has
one to three characters, and no separator is placed before it (`joinSep` never
puts `sep` in front of the first group). -/
theorem grouping_correct (input sym sep dsep : List Char) (hsep : sep ≠ []) :
    currencyFormat input sym sep dsep =
      sym ++ joinSep sep (groupsFromRight (intPartOf input dsep))
        ++ fracPartOf input dsep
    ∧ (groupsFromRight (intPartOf input dsep)).flatten = intPartOf input dsep
    ∧ (intPartOf input dsep ≠ [] →
        (groupsFromRight (intPartOf input dsep)).length
          = ((intPartOf input dsep).length - 1) / 3 + 1)
    ∧ (∀ g ∈ groupsFromRight (intPartOf input dsep), 1 ≤ g.length ∧ g.length ≤ 3)
    ∧ (∀ g ∈ (groupsFromRight (intPartOf input dsep)).tail, g.length = 3) := by
  refine ⟨currencyFormat_eq input sym sep dsep hsep, groupsFromRight_flatten _, ?_,
    groupsFromRight_mem_length _, groupsFromRight_tail_length _⟩
  intro hne
  rw [groupsFromRight_length]
  have := List.length_pos.mpr hne
  omega

/-- Witness for C1 at `input = "1234567.89"`, `symbol = "$"`, separators `","`
and `"."`. -/
theorem grouping_correct_witness :
    currencyFormat "1234567.89".data "$".data ",".data ".".data =
      "$".data ++ joinSep ",".data (groupsFromRight (intPartOf "1234567.89".data ".".data))
        ++ fracPartOf "1234567.89".data ".".data
    ∧ (groupsFromRight (intPartOf "1234567.89".data ".".data)).flatten
        = intPartOf "1234567.89".data ".".data
    ∧ (intPartOf "1234567.89".data ".".data ≠ [] →
        (groupsFromRight (intPartOf "1234567.89".data ".".data)).length
          = ((intPartOf "1234567.89".data ".".data).length - 1) / 3 + 1)
    ∧ (∀ g ∈ groupsFromRight (intPartOf "1234567.89".data ".".data),
        1 ≤ g.length ∧ g.length ≤ 3)
    ∧ (∀ g ∈ (groupsFromRight (intPartOf "1234567.89".data ".".data)).tail,
        g.length = 3) :=
  grouping_correct "1234567.89".data "$".data ",".data ".".data (by decide)

/-- C2: when both separators are non-empty and the decimal separator occurs in
the input, the output of `currencyFormat` is exactly the symbol followed by the
grouped integer part followed, character for character, by the suffix of the
input that starts at the last occurrence of the decimal separator. -/
theorem fractional_passthrough (input sym sep dsep : List Char)
    (hsep : sep ≠ []) (hdsep : dsep ≠ [])
    (hocc : ∃ i, occursAt dsep input i = true) :
    currencyFormat input sym sep dsep =
      (sym ++ joinSep sep (groupsFromRight (intPartOf input dsep)))
        ++ input.drop (lastIndexOf input dsep).toNat := by
  have hp := lastIndexOf_nonneg hdsep hocc
  rw [currencyFormat_eq input sym sep dsep hsep]
  unfold fracPartOf
  simp only [if_pos hp]

/-- Witness for C2 at `input = "1234.5"`. -/
theorem fractional_passthrough_witness :
    currencyFormat "1234.5".data "$".data ",".data ".".data =
      ("$".data ++ joinSep ",".data (groupsFromRight (intPartOf "1234.5".data ".".data)))
        ++ "1234.5".data.drop (lastIndexOf "1234.5".data ".".data).toNat :=
  fractional_passthrough "1234.5".data "$".data ",".data ".".data
    (by decide) (by decide) ⟨4, by decide⟩

/-- C3: the claim fails on the code.  The default pattern `/[^\d|^\.]+/g` also
keeps the literal characters `|` and `^` (inside a character class `|` and a
non-leading `^` are literals), contradicting the function's own documentation
("all non-numeral and non-decimal characters removed").  On input `"|1^a"` the
code returns `"|1^"`, keeping `|` and `^` although both are outside `[0-9.]`. -/
theorem unformat_keeps_bar_and_caret :
    currencyUnformat "|1^a".data = "|1^".data
    ∧ ('|'.isDigit = false ∧ '|' ≠ '.')
    ∧ ('^'.isDigit = false ∧ '^' ≠ '.') := by decide

/-- C4: round-trip with the default separators.  For a string of digits with at
most one `'.'` and no thousands separator,
`currencyUnformat (currencyFormat s "$ " "," ".")` gives back `s` exactly. -/
theorem roundtrip_default (s : List Char)
    (hchars : ∀ c ∈ s, c.isDigit = true ∨ c = '.')
    (hdot : s.count '.' ≤ 1) :
    currencyUnformat (currencyFormat s "$ ".data ",".data ".".data) = s := by
  have hkeep : ∀ c ∈ s, (!matchesDefaultClass c) = true := by
    intro c hc
    rcases hchars c hc with h | rfl
    · simp [matchesDefaultClass, h]
    · simp [matchesDefaultClass]
  rw [currencyFormat_eq _ _ _ _ (by decide)]
  unfold currencyUnformat
  rw [List.filter_append, List.filter_append,
    filter_joinSep _ _ (by decide), groupsFromRight_flatten]
  have h1 : "$ ".data.filter (fun c => !matchesDefaultClass c) = [] := by decide
  have h2 : (intPartOf s ".".data).filter (fun c => !matchesDefaultClass c)
      = intPartOf s ".".data :=
    List.filter_eq_self.mpr (fun c hc => hkeep c (intPartOf_subset s ".".data hc))
  have h3 : (fracPartOf s ".".data).filter (fun c => !matchesDefaultClass c)
      = fracPartOf s ".".data :=
    List.filter_eq_self.mpr (fun c hc => hkeep c (fracPartOf_subset s ".".data hc))
  rw [h1, h2, h3, List.nil_append, intPart_append_fracPart]

/-- Witness for C4 at `s = "12345.67"`. -/
theorem roundtrip_default_witness :
    currencyUnformat (currencyFormat "12345.67".data "$ ".data ",".data ".".data)
      = "12345.67".data :=
  roundtrip_default "12345.67".data (by decide) (by decide)

/-- C5: with an empty group separator, `currencyFormat` returns exactly the
symbol concatenated with the unmodified input, for every input, symbol and
decimal separator: no grouping logic runs. -/
theorem empty_groupsep_bypass (input sym dsep : List Char) :
    currencyFormat input sym [] dsep = sym ++ input := by
  simp [currencyFormat]

/-- C10: `currencyUnformat` with the default pattern is idempotent: every
character surviving the first substitution is outside the stripped class, so a
second pass removes nothing. -/
theorem unformat_idempotent (s : List Char) :
    currencyUnformat (currencyUnformat s) = currencyUnformat s := by
  unfold currencyUnformat
  rw [List.filter_filter]
  simp

/-- C6: when the decimal separator does not occur in the input (at no position
up to the input's length) and the group separator is non-empty, the fractional
part is empty, the integer part is the whole input, and the entire input is
grouped; in particular `format("1234567", "$", ",", ".") = "$1,234,567"`. -/
theorem no_decimal_whole_grouped (input sym sep dsep : List Char) (hsep : sep ≠ [])
    (hnot : ∀ i, i < input.length + 1 → occursAt dsep input i = false) :
    currencyFormat input sym sep dsep = sym ++ joinSep sep (groupsFromRight input)
    ∧ intPartOf input dsep = input
    ∧ fracPartOf input dsep = []
    ∧ currencyFormat "1234567".data "$".data ",".data ".".data = "$1,234,567".data := by
  have hp := lastIndexOf_eq_neg_one hnot
  have hint : intPartOf input dsep = input := by
    unfold intPartOf
    rw [hp]
    simp
  have hfrac : fracPartOf input dsep = [] := by
    unfold fracPartOf
    rw [hp]
    simp
  refine ⟨?_, hint, hfrac, by decide⟩
  rw [currencyFormat_eq input sym sep dsep hsep, hint, hfrac]
  simp

/-- Witness for C6 at `input = "1234567"`, `dsep = "."`. -/
theorem no_decimal_whole_grouped_witness :
    currencyFormat "1234567".data "$".data ",".data ".".data
        = "$".data ++ joinSep ",".data (groupsFromRight "1234567".data)
    ∧ intPartOf "1234567".data ".".data = "1234567".data
    ∧ fracPartOf "1234567".data ".".data = []
    ∧ currencyFormat "1234567".data "$".data ",".data ".".data = "$1,234,567".data :=
  no_decimal_whole_grouped "1234567".data "$".data ",".data ".".data
    (by decide) (by decide)

/-- C7: grouping is purely positional.  For two inputs whose integer parts have
the same length (same symbol, non-empty group separator and decimal separator),
the group-size sequences coincide, and both outputs are the symbol, the groups
joined by the separator, and the fractional part — so the separators sit at
exactly the same positions regardless of which characters (digits or not) the
integer parts hold; no validation takes place. -/
theorem positional_grouping (in1 in2 sym sep dsep : List Char) (hsep : sep ≠ [])
    (hlen : (intPartOf in1 dsep).length = (intPartOf in2 dsep).length) :
    (groupsFromRight (intPartOf in1 dsep)).map List.length
      = (groupsFromRight (intPartOf in2 dsep)).map List.length
    ∧ currencyFormat in1 sym sep dsep
        = sym ++ joinSep sep (groupsFromRight (intPartOf in1 dsep))
          ++ fracPartOf in1 dsep
    ∧ currencyFormat in2 sym sep dsep
        = sym ++ joinSep sep (groupsFromRight (intPartOf in2 dsep))
          ++ fracPartOf in2 dsep := by
  refine ⟨?_, currencyFormat_eq _ _ _ _ hsep, currencyFormat_eq _ _ _ _ hsep⟩
  rw [groupsFromRight_map_length, groupsFromRight_map_length, hlen]

/-- Witness for C7 at a digit input and a non-digit input with integer parts of
equal length. -/
theorem positional_grouping_witness :
    (groupsFromRight (intPartOf "123456".data ".".data)).map List.length
      = (groupsFromRight (intPartOf "ab!de?".data ".".data)).map List.length
    ∧ currencyFormat "123456".data "$".data ",".data ".".data
        = "$".data ++ joinSep ",".data (groupsFromRight (intPartOf "123456".data ".".data))
          ++ fracPartOf "123456".data ".".data
    ∧ currencyFormat "ab!de?".data "$".data ",".data ".".data
        = "$".data ++ joinSep ",".data (groupsFromRight (intPartOf "ab!de?".data ".".data))
          ++ fracPartOf "ab!de?".data ".".data :=
  positional_grouping "123456".data "ab!de?".data "$".data ",".data ".".data
    (by decide) (by decide)

/-- C8: on the empty input string, `currencyFormat` returns exactly the symbol,
for every symbol and both separators: with a non-empty group separator the
reversed digit list is empty so the loop places nothing, and with an empty one
the result is the symbol concatenated with the empty string. -/
theorem format_empty_input (sym sep dsep : List Char) :
    currencyFormat [] sym sep dsep = sym := by
  by_cases hsep : sep = []
  · simp [currencyFormat, hsep]
  · unfold currencyFormat
    rw [if_pos hsep]
    by_cases hd : dsep = []
    · subst hd
      have h0 : lastIndexOf ([] : List Char) [] = 0 := by decide
      rw [h0]
      simp [unitsLoop]
    · have hp : lastIndexOf ([] : List Char) dsep = -1 := by
        apply lastIndexOf_eq_neg_one
        intro i hi
        unfold occursAt
        cases dsep with
        | nil => cases hd rfl
        | cons x xs => simp
      rw [hp]
      simp [unitsLoop]

/-- C9: with a non-empty group separator, calling `currencyFormat` with the
empty string as decimal separator behaves exactly as when the decimal
separator does not occur in the input: `lastIndexOf` locates the empty string
at the end of the input, the fractional part is empty, and the whole input is
grouped. -/
theorem empty_decimalsep (input sym sep dsep2 : List Char) (hsep : sep ≠ [])
    (hnot : ∀ i, i < input.length + 1 → occursAt dsep2 input i = false) :
    lastIndexOf input [] = (input.length : Int)
    ∧ currencyFormat input sym sep [] = currencyFormat input sym sep dsep2 := by
  refine ⟨lastIndexOf_nil_sep input, ?_⟩
  rw [currencyFormat_eq input sym sep [] hsep, currencyFormat_eq input sym sep dsep2 hsep]
  have h1 : intPartOf input [] = input := by
    unfold intPartOf
    rw [lastIndexOf_nil_sep]
    rw [if_pos (by omega : (input.length : Int) > -1)]
    simp
  have h2 : fracPartOf input [] = [] := by
    unfold fracPartOf
    rw [lastIndexOf_nil_sep]
    rw [if_pos (by omega : (input.length : Int) > -1)]
    simp
  have hp := lastIndexOf_eq_neg_one hnot
  have h3 : intPartOf input dsep2 = input := by
    unfold intPartOf
    rw [hp]
    simp
  have h4 : fracPartOf input dsep2 = [] := by
    unfold fracPartOf
    rw [hp]
    simp
  rw [h1, h2, h3, h4]

/-- Witness for C9 at `input = "987654"`, `dsep2 = "."`. -/
theorem empty_decimalsep_witness :
    lastIndexOf "987654".data [] = ("987654".data.length : Int)
    ∧ currencyFormat "987654".data "$".data ",".data []
        = currencyFormat "987654".data "$".data ",".data ".".data :=
  empty_decimalsep "987654".data "$".data ",".data ".".data (by decide) (by decide)
